import Mathlib

/-!
Verification of the options-decoded pricing engine (`src/utils.py`).

The engine's numeric functions are embedded over `ℝ` (Python floats are read
as exact real arithmetic).  `scipy.stats.norm.cdf` is embedded as the genuine
standard-normal cumulative distribution function `Phi`, defined by a Gaussian
integral.  Random draws (`np.random.standard_normal`) are taken as explicit
functional inputs, so every simulation routine becomes a deterministic
function of its draw.  Python's `None` is `Option.none`; a Python function
that can swallow exceptions (`implied_volatility`) is embedded with its
external root-finder as an `Option`-valued oracle argument.
-/

open MeasureTheory Filter Set

noncomputable section

namespace OptionsDecoded

/-- Unnormalised standard-normal density `exp (-x²/2)`, the integrand of the
normal cdf used by `scipy.stats.norm`. -/
def gauss (t : ℝ) : ℝ := Real.exp (-(1/2) * t ^ 2)

/-- Standard normal cumulative distribution function (`scipy.stats.norm.cdf`). -/
def Phi (x : ℝ) : ℝ := (∫ t in Iic x, gauss t) / Real.sqrt (2 * Real.pi)

/-- Standard normal probability density function (`scipy.stats.norm.pdf`). -/
def normPdf (x : ℝ) : ℝ := gauss x / Real.sqrt (2 * Real.pi)

/-- Intrinsic value of an option, `max(S0-K,0)` for a call and `max(K-S0,0)`
for a put (the expression appearing in the degenerate branches of
`black_scholes_price` and in `implied_volatility`, src/utils.py). -/
def intrinsic (S0 K : ℝ) (option_type : String) : ℝ :=
  if option_type = "call" then max (S0 - K) 0 else max (K - S0) 0

/-- Embedding of `black_scholes_price` (src/utils.py lines 88-97). -/
def black_scholes_price (S0 K r sigma T : ℝ) (option_type : String) : ℝ :=
  if T ≤ 0 ∨ sigma ≤ 0 then
    (if option_type = "call" then max (S0 - K) 0 else max (K - S0) 0)
  else
    let d1 := (Real.log (S0 / K) + (r + sigma ^ 2 / 2) * T) / (sigma * Real.sqrt T)
    let d2 := d1 - sigma * Real.sqrt T
    if option_type = "call" then
      S0 * Phi d1 - K * Real.exp (-(r * T)) * Phi d2
    else
      K * Real.exp (-(r * T)) * Phi (-d2) - S0 * Phi (-d1)

/-- Embedding of `simulate_gbm_paths` (src/utils.py lines 100-108).  The draw
matrix `Z` (`np.random.standard_normal((n_paths, steps))`) is an explicit
input; `Z i k` is the draw for path `i` at step `k`.  The zero column
prepended by `np.concatenate` followed by `np.cumsum` is the partial sum
`∑ k < j` of the per-step log-returns. -/
def simulate_gbm_paths (S0 r sigma T : ℝ) (steps n_paths : ℕ)
    (Z : ℕ → ℕ → ℝ) : List ℝ × List (List ℝ) :=
  let dt := T / steps
  let t := (List.range (steps + 1)).map (fun (i : ℕ) => (i : ℝ) * T / steps)
  let log_returns : ℕ → ℕ → ℝ := fun i k =>
    (r - sigma ^ 2 / 2) * dt + sigma * Real.sqrt dt * Z i k
  let log_paths : ℕ → ℕ → ℝ := fun i j => ∑ k ∈ Finset.range j, log_returns i k
  (t, (List.range n_paths).map (fun i =>
    (List.range (steps + 1)).map (fun j => S0 * Real.exp (log_paths i j))))

/-- Arithmetic mean of a list (`np.mean`); `0` on the empty list. -/
def listMean (l : List ℝ) : ℝ := l.sum / l.length

/-- Population standard deviation of a list (`np.std`, default `ddof=0`). -/
def listStd (l : List ℝ) : ℝ :=
  Real.sqrt (listMean (l.map (fun x => (x - listMean l) ^ 2)))

/-- Embedding of `monte_carlo_price` (src/utils.py lines 111-119).  The draw
vector (`np.random.standard_normal(n_paths // 2)`) is supplied through the
explicit input `draw`. -/
def monte_carlo_price (S0 K r sigma T : ℝ) (n_paths : ℕ) (option_type : String)
    (draw : ℕ → ℝ) : ℝ × ℝ :=
  let Z := (List.range (n_paths / 2)).map draw
  let Z_full := Z ++ Z.map (fun z => -z)
  let S_T := Z_full.map (fun z =>
    S0 * Real.exp ((r - sigma ^ 2 / 2) * T + sigma * Real.sqrt T * z))
  let payoff := S_T.map (fun s =>
    if option_type = "call" then max (s - K) 0 else max (K - s) 0)
  let disc := Real.exp (-(r * T))
  (disc * listMean payoff, disc * listStd payoff / Real.sqrt n_paths)

/-- The five Greeks returned by `compute_greeks` as a Python dict. -/
structure Greeks where
  delta : ℝ
  gamma : ℝ
  vega : ℝ
  theta : ℝ
  rho : ℝ

/-- Embedding of `compute_greeks` (src/utils.py lines 124-140). -/
def compute_greeks (S0 K r sigma T : ℝ) (option_type : String) : Greeks :=
  if T ≤ 0 ∨ sigma ≤ 0 then
    ⟨0, 0, 0, 0, 0⟩
  else
    let d1 := (Real.log (S0 / K) + (r + sigma ^ 2 / 2) * T) / (sigma * Real.sqrt T)
    let d2 := d1 - sigma * Real.sqrt T
    let pdf_d1 := normPdf d1
    let gamma := pdf_d1 / (S0 * sigma * Real.sqrt T)
    let vega := S0 * pdf_d1 * Real.sqrt T / 100
    if option_type = "call" then
      { delta := Phi d1
        gamma := gamma
        vega := vega
        theta := (-(S0 * pdf_d1 * sigma) / (2 * Real.sqrt T)
          - r * K * Real.exp (-(r * T)) * Phi d2) / 365
        rho := K * T * Real.exp (-(r * T)) * Phi d2 / 100 }
    else
      { delta := Phi d1 - 1
        gamma := gamma
        vega := vega
        theta := (-(S0 * pdf_d1 * sigma) / (2 * Real.sqrt T)
          + r * K * Real.exp (-(r * T)) * Phi (-d2)) / 365
        rho := -K * T * Real.exp (-(r * T)) * Phi (-d2) / 100 }

/-- Embedding of `implied_volatility` (src/utils.py lines 145-153).  The
external `scipy.optimize.brentq` root-finder is an oracle argument taking the
objective, the bracket ends `1e-4` and `10.0` and the iteration budget `500`;
it returns `none` when it raises (failure to bracket or to converge), which
the surrounding `try/except` turns into Python `None`. -/
def implied_volatility (brentq : (ℝ → ℝ) → ℝ → ℝ → ℕ → Option ℝ)
    (market_price S0 K r T : ℝ) (option_type : String) : Option ℝ :=
  let intr := if option_type = "call" then max (S0 - K) 0 else max (K - S0) 0
  if market_price ≤ intr ∨ market_price ≤ 0 then none
  else
    brentq (fun sigma => black_scholes_price S0 K r sigma T option_type - market_price)
      (1 / 10000) 10 500

/-- Commentary bucket of the probability-of-ITM signal in `generate_signal`:
the three texts of the chained conditional at src/utils.py lines 239-241. -/
inductive ITMBucket where
  /-- "It's close to 50/50 — very sensitive to price moves." -/
  | nearMoney : ITMBucket
  /-- "High probability of profit, but less upside leverage." -/
  | highProb : ITMBucket
  /-- "Long shot — higher potential return, lower probability." -/
  | longShot : ITMBucket
  deriving DecidableEq

/-- One entry of the `signals` list built by `generate_signal`; each
constructor stands for one of the dicts appended there, keeping the numeric
data the dict text reports (the prose fields are presentation only). -/
inductive Signal where
  /-- "Options Are Expensive (High IV vs HV)". -/
  | expensive : Signal
  /-- "Options Are Cheap (Low IV vs HV)". -/
  | cheap : Signal
  /-- "Options Are Fairly Priced". -/
  | fairlyPriced : Signal
  /-- "Market Price is ...% Above/Below Model Price", with its percentage and
  its severity level string. -/
  | deviation (diff_pct : ℝ) (level : String) : Signal
  /-- "Only ... Days to Expiry — Theta Burning Fast". -/
  | timeDecay : Signal
  /-- "~...% Chance of Finishing In-The-Money", with `|delta|×100` and the
  commentary bucket. -/
  | probITM (prob : ℝ) (bucket : ITMBucket) : Signal

/-- Python truthiness of an optional float: `None` and `0.0` are falsy. -/
def truthy (o : Option ℝ) : Bool :=
  match o with
  | none => false
  | some x => decide (x ≠ 0)

/-- Embedding of `generate_signal` (src/utils.py lines 158-247).  Returns
`(signals, verdict, verdict_color, iv_hv_ratio)`. -/
def generate_signal (bs_price : ℝ) (market_price iv hv : Option ℝ)
    (delta theta T_days : ℝ) (option_type : String) :
    List Signal × String × String × Option ℝ :=
  let base : List Signal × String × String × Option ℝ :=
    if truthy iv && truthy hv then
      let ratio := iv.getD 0 / hv.getD 0
      if ratio > 13/10 then ([Signal.expensive], "EXPENSIVE", "red", some ratio)
      else if ratio < 3/4 then ([Signal.cheap], "CHEAP", "green", some ratio)
      else ([Signal.fairlyPriced], "NEUTRAL", "gray", some ratio)
    else ([], "NEUTRAL", "gray", none)
  let dev_signals : List Signal :=
    if truthy market_price && decide (bs_price ≠ 0) then
      let diff_pct := (market_price.getD 0 - bs_price) / bs_price * 100
      if |diff_pct| > 10 then
        [Signal.deviation diff_pct (if diff_pct > 10 then "warning" else "good")]
      else []
    else []
  let decay_signals : List Signal := if T_days < 30 then [Signal.timeDecay] else []
  let itm_signals : List Signal :=
    if delta ≠ 0 then
      [Signal.probITM (|delta| * 100)
        (if 40 < |delta| * 100 ∧ |delta| * 100 < 60 then ITMBucket.nearMoney
         else if |delta| * 100 > 70 then ITMBucket.highProb
         else ITMBucket.longShot)]
    else []
  (base.1 ++ dev_signals ++ decay_signals ++ itm_signals,
    base.2.1, base.2.2.1, base.2.2.2)

/-- Modelled from the spec: the point of path `i` after `j+1` steps in the
full-path simulation shared by the exotic pricers (spec section 4.4); the
repository's `barrier_option_mc` is present only as commented-out code in
src/utils.py (lines 386-394), whose `paths = S0*np.exp(np.cumsum(log_returns,
axis=1))` has no prepended zero column, so column `j` holds the cumulative
sum of the first `j+1` log-returns. -/
def exotic_path_point (S0 r sigma T : ℝ) (steps : ℕ) (Z : ℕ → ℕ → ℝ)
    (i j : ℕ) : ℝ :=
  let dt := T / steps
  S0 * Real.exp (∑ k ∈ Finset.range (j + 1),
    ((r - sigma ^ 2 / 2) * dt + sigma * Real.sqrt dt * Z i k))

/-- Modelled from the spec: down-and-out barrier call pricer (spec section
4.4; present in src/utils.py only as the commented-out `barrier_option_mc`,
lines 386-394, which this follows).  A path is knocked out when any of its
`steps` sampled points is `≤ B`; a knocked-out path pays `0`, any other path
pays `max(S_T - K, 0)` on its terminal point; the mean payoff is discounted
by `e^(-rT)`. -/
def barrier_option_mc (S0 K B r sigma T : ℝ) (steps n_paths : ℕ)
    (Z : ℕ → ℕ → ℝ) : ℝ :=
  let payoff : ℕ → ℝ := fun i =>
    if ∃ j ∈ Finset.range steps, exotic_path_point S0 r sigma T steps Z i j ≤ B
    then 0
    else max (exotic_path_point S0 r sigma T steps Z i (steps - 1) - K) 0
  Real.exp (-(r * T)) * ((∑ i ∈ Finset.range n_paths, payoff i) / n_paths)

/-- Vanilla European call Monte Carlo estimate evaluated on the same
simulated path set: the payoff rule `max(S_T - K, 0)` of `monte_carlo_price`
(src/utils.py line 115) applied to each path's terminal point, discounted by
`e^(-rT)` and averaged, with no knock-out.  Comparison definition for the
barrier-dominance property. -/
def vanilla_call_mc_on_paths (S0 K r sigma T : ℝ) (steps n_paths : ℕ)
    (Z : ℕ → ℕ → ℝ) : ℝ :=
  Real.exp (-(r * T)) *
    ((∑ i ∈ Finset.range n_paths,
      max (exotic_path_point S0 r sigma T steps Z i (steps - 1) - K) 0) / n_paths)

/-! ### Properties of the standard normal cdf -/

theorem gauss_integrable : Integrable gauss := by
  unfold gauss
  exact integrable_exp_neg_mul_sq (by norm_num : (0:ℝ) < 1/2)

theorem gauss_total : (∫ t : ℝ, gauss t) = Real.sqrt (2 * Real.pi) := by
  unfold gauss
  rw [integral_gaussian (1/2 : ℝ), show Real.pi / (1/2) = 2 * Real.pi by ring]

theorem sqrt_two_pi_pos : 0 < Real.sqrt (2 * Real.pi) :=
  Real.sqrt_pos.mpr (by positivity)

theorem gauss_even (t : ℝ) : gauss (-t) = gauss t := by
  simp [gauss]

/-- Reflection identity for the normal cdf: `Φ(x) + Φ(-x) = 1`. -/
theorem Phi_add_neg (x : ℝ) : Phi x + Phi (-x) = 1 := by
  have hrefl : (∫ t in Iic (-x), gauss t) = ∫ t in Ioi x, gauss t := by
    have h1 : (∫ t in Iic (-x), gauss t) = ∫ t in Iic (-x), gauss (-t) := by
      simp [gauss_even]
    rw [h1, integral_comp_neg_Iic, neg_neg]
  have hsplit : (∫ t in Iic x, gauss t) + (∫ t in Ioi x, gauss t)
      = ∫ t : ℝ, gauss t :=
    intervalIntegral.integral_Iic_add_Ioi gauss_integrable.integrableOn gauss_integrable.integrableOn
  have : (∫ t in Iic x, gauss t) + (∫ t in Iic (-x), gauss t)
      = Real.sqrt (2 * Real.pi) := by
    rw [hrefl, hsplit, gauss_total]
  unfold Phi
  rw [div_add_div_same, this, div_self (ne_of_gt sqrt_two_pi_pos)]

theorem Phi_zero : Phi 0 = 1 / 2 := by
  have h := Phi_add_neg 0
  rw [neg_zero] at h
  linarith

theorem Phi_continuous : Continuous Phi := by
  have hkey : ∀ x : ℝ, (∫ t in Iic x, gauss t)
      = (∫ t in Iic (0:ℝ), gauss t) + ∫ t in (0:ℝ)..x, gauss t := by
    intro x
    have h := intervalIntegral.integral_Iic_sub_Iic (gauss_integrable.integrableOn (s := Iic (0:ℝ)))
      (gauss_integrable.integrableOn (s := Iic x))
    linarith
  have : Phi = fun x =>
      ((∫ t in Iic (0:ℝ), gauss t) + ∫ t in (0:ℝ)..x, gauss t)
        / Real.sqrt (2 * Real.pi) := by
    funext x; rw [Phi, hkey]
  rw [this]
  exact (continuous_const.add (gauss_integrable.continuous_primitive 0)).div_const _

/-- The normal cdf tends to `1` at `+∞`. -/
theorem Phi_tendsto_atTop : Tendsto Phi atTop (nhds 1) := by
  have hcover : AECover (volume : Measure ℝ) atTop (fun x : ℝ => Iic x) :=
    aecover_Iic tendsto_id
  have h := hcover.integral_tendsto_of_countably_generated gauss_integrable
  have h2 : Tendsto (fun x : ℝ => (∫ t in Iic x, gauss t) / Real.sqrt (2 * Real.pi))
      atTop (nhds ((∫ t : ℝ, gauss t) / Real.sqrt (2 * Real.pi))) := h.div_const _
  rw [gauss_total, div_self (ne_of_gt sqrt_two_pi_pos)] at h2
  exact h2

/-- The normal cdf tends to `0` at `-∞`. -/
theorem Phi_tendsto_atBot : Tendsto Phi atBot (nhds 0) := by
  have hx : ∀ x : ℝ, Phi x = 1 - Phi (-x) := fun x => by
    have := Phi_add_neg x; linarith
  have hneg : Tendsto (fun x : ℝ => -x) atBot atTop := tendsto_neg_atBot_atTop
  have h : Tendsto (fun x : ℝ => 1 - Phi (-x)) atBot (nhds (1 - 1)) :=
    tendsto_const_nhds.sub (Phi_tendsto_atTop.comp hneg)
  simp only [sub_self] at h
  exact h.congr fun x => (hx x).symm

/-! ### Claim theorems -/

/-- C3: for every `S0 > 0`, `K > 0`, `r`, any side, and every input with
`T ≤ 0` or `σ ≤ 0`, `black_scholes_price` returns exactly the intrinsic value
(`max(S0-K,0)` for a call, `max(K-S0,0)` for a put) and `compute_greeks`
returns all five Greeks equal to zero; both are total functions of their
inputs, so neither operation can raise on such inputs. -/
theorem degenerate_inputs_policy (S0 K r sigma T : ℝ) (option_type : String)
    (hS : 0 < S0) (hK : 0 < K) (hdeg : T ≤ 0 ∨ sigma ≤ 0) :
    black_scholes_price S0 K r sigma T option_type = intrinsic S0 K option_type ∧
    compute_greeks S0 K r sigma T option_type = ⟨0, 0, 0, 0, 0⟩ := by
  constructor
  · unfold black_scholes_price intrinsic
    rw [if_pos hdeg]
  · unfold compute_greeks
    rw [if_pos hdeg]

/-- Witness for C3 at `S0 = 1`, `K = 2`, `r = 0`, `σ = 0`, `T = 1`. -/
theorem degenerate_inputs_policy_witness :
    black_scholes_price 1 2 0 0 1 "call" = intrinsic 1 2 "call" ∧
    compute_greeks 1 2 0 0 1 "call" = ⟨0, 0, 0, 0, 0⟩ :=
  degenerate_inputs_policy 1 2 0 0 1 "call" (by norm_num) (by norm_num)
    (Or.inr le_rfl)

/-- C10: for every `S0 > 0` and every realization of the draws, every entry
of the price matrix returned by `simulate_gbm_paths` is strictly positive:
each entry is `S0` times an exponential of a finite log-return. -/
theorem gbm_paths_positive (S0 r sigma T : ℝ) (steps n_paths : ℕ)
    (Z : ℕ → ℕ → ℝ) (hS : 0 < S0) :
    ∀ p ∈ (simulate_gbm_paths S0 r sigma T steps n_paths Z).2,
      ∀ x ∈ p, 0 < x := by
  intro p hp x hx
  simp only [simulate_gbm_paths, List.mem_map] at hp
  obtain ⟨i, -, rfl⟩ := hp
  simp only [List.mem_map] at hx
  obtain ⟨j, -, rfl⟩ := hx
  exact mul_pos hS (Real.exp_pos _)

/-- Witness for C10 at `S0 = 1`, `r = 0`, `σ = 0`, `T = 1`, one step, one
path, zero draws. -/
theorem gbm_paths_positive_witness :
    (0:ℝ) < 1 ∧
    ∀ p ∈ (simulate_gbm_paths 1 0 0 1 1 1 (fun _ _ => 0)).2, ∀ x ∈ p, 0 < x :=
  ⟨by norm_num, gbm_paths_positive 1 0 0 1 1 1 (fun _ _ => 0) (by norm_num)⟩

/-- C8: for `stepCount ≥ 1` and `pathCount ≥ 1`, `simulate_gbm_paths` returns
a time grid of exactly `stepCount+1` evenly spaced points running from `0` to
`T`, and a price matrix of `pathCount` trajectories, each of `stepCount+1`
points whose first entry is exactly `S0` (cumulative log-return `0` at
`t = 0`). -/
theorem gbm_paths_shape (S0 r sigma T : ℝ) (steps n_paths : ℕ)
    (Z : ℕ → ℕ → ℝ) (hsteps : 1 ≤ steps) (hpaths : 1 ≤ n_paths) :
    (simulate_gbm_paths S0 r sigma T steps n_paths Z).1.length = steps + 1 ∧
    (∀ i, i < steps + 1 →
      (simulate_gbm_paths S0 r sigma T steps n_paths Z).1.getD i 0
        = i * T / steps) ∧
    (simulate_gbm_paths S0 r sigma T steps n_paths Z).1.getD 0 0 = 0 ∧
    (simulate_gbm_paths S0 r sigma T steps n_paths Z).1.getD steps 0 = T ∧
    (∀ i, i < steps →
      (simulate_gbm_paths S0 r sigma T steps n_paths Z).1.getD (i+1) 0
        - (simulate_gbm_paths S0 r sigma T steps n_paths Z).1.getD i 0
        = T / steps) ∧
    (simulate_gbm_paths S0 r sigma T steps n_paths Z).2.length = n_paths ∧
    (∀ p ∈ (simulate_gbm_paths S0 r sigma T steps n_paths Z).2,
      p.length = steps + 1 ∧ p.head? = some S0) := by
  have hs0 : (steps : ℝ) ≠ 0 := Nat.cast_ne_zero.mpr (by omega)
  have h1 : (simulate_gbm_paths S0 r sigma T steps n_paths Z).1
      = (List.range (steps + 1)).map (fun (i : ℕ) => (i : ℝ) * T / steps) := rfl
  have h2 : (simulate_gbm_paths S0 r sigma T steps n_paths Z).2
      = (List.range n_paths).map (fun i => (List.range (steps + 1)).map
          (fun j => S0 * Real.exp (∑ k ∈ Finset.range j,
            ((r - sigma ^ 2 / 2) * (T / steps)
              + sigma * Real.sqrt (T / steps) * Z i k)))) := rfl
  have hgrid : ∀ i, i < steps + 1 →
      (simulate_gbm_paths S0 r sigma T steps n_paths Z).1.getD i 0
        = i * T / steps := by
    intro i hi
    rw [h1, List.getD_eq_getElem _ _ (by simpa using hi)]
    simp
  refine ⟨by rw [h1]; simp, hgrid, ?_, ?_, ?_, ?_, ?_⟩
  · rw [hgrid 0 (by omega)]; simp
  · rw [hgrid steps (by omega)]
    field_simp
  · intro i hi
    rw [hgrid (i+1) (by omega), hgrid i (by omega)]
    push_cast
    ring
  · rw [h2]; simp
  · intro p hp
    rw [h2] at hp
    simp only [List.mem_map] at hp
    obtain ⟨i, -, rfl⟩ := hp
    constructor
    · simp
    · rw [List.range_succ_eq_map]
      simp

/-- Witness for C8 at one step and one path. -/
theorem gbm_paths_shape_witness :
    1 ≤ 1 ∧
    (simulate_gbm_paths 1 0 0 1 1 1 (fun _ _ => 0)).2.length = 1 :=
  ⟨le_rfl,
    (gbm_paths_shape 1 0 0 1 1 1 (fun _ _ => 0) le_rfl le_rfl).2.2.2.2.2.1⟩

/-- C2: `monte_carlo_price`, with its random draws given as explicit input,
uses the vector `Z` of the first `pathCount / 2` draws, works on exactly the
antithetic-paired set `Z ++ (-Z)` (so the effective sample size is
`2·⌊pathCount/2⌋`), maps each variate to the terminal price
`S0·exp((r-σ²/2)T + σ√T·z)`, takes payoff `max(S_T-K,0)` for a call and
`max(K-S_T,0)` for a put, and returns price `e^(-rT)·mean(payoff)` and
standard error `e^(-rT)·std(payoff)/√pathCount`. -/
theorem monte_carlo_contract (S0 K r sigma T : ℝ) (n_paths : ℕ)
    (option_type : String) (draw : ℕ → ℝ) :
    ((List.range (n_paths / 2)).map draw).length = n_paths / 2 ∧
    (((List.range (n_paths / 2)).map draw)
      ++ ((List.range (n_paths / 2)).map draw).map (fun z => -z)).length
      = 2 * (n_paths / 2) ∧
    ((((List.range (n_paths / 2)).map draw)
      ++ ((List.range (n_paths / 2)).map draw).map (fun z => -z)).map
        (fun z =>
          if option_type = "call" then
            max (S0 * Real.exp ((r - sigma ^ 2 / 2) * T + sigma * Real.sqrt T * z) - K) 0
          else
            max (K - S0 * Real.exp ((r - sigma ^ 2 / 2) * T + sigma * Real.sqrt T * z)) 0)).length
      = 2 * (n_paths / 2) ∧
    (monte_carlo_price S0 K r sigma T n_paths option_type draw).1
      = Real.exp (-(r * T)) * listMean
          ((((List.range (n_paths / 2)).map draw)
            ++ ((List.range (n_paths / 2)).map draw).map (fun z => -z)).map
            (fun z =>
              if option_type = "call" then
                max (S0 * Real.exp ((r - sigma ^ 2 / 2) * T + sigma * Real.sqrt T * z) - K) 0
              else
                max (K - S0 * Real.exp ((r - sigma ^ 2 / 2) * T + sigma * Real.sqrt T * z)) 0)) ∧
    (monte_carlo_price S0 K r sigma T n_paths option_type draw).2
      = Real.exp (-(r * T)) * listStd
          ((((List.range (n_paths / 2)).map draw)
            ++ ((List.range (n_paths / 2)).map draw).map (fun z => -z)).map
            (fun z =>
              if option_type = "call" then
                max (S0 * Real.exp ((r - sigma ^ 2 / 2) * T + sigma * Real.sqrt T * z) - K) 0
              else
                max (K - S0 * Real.exp ((r - sigma ^ 2 / 2) * T + sigma * Real.sqrt T * z)) 0))
          / Real.sqrt n_paths := by
  refine ⟨by simp, by simp [two_mul], by simp [two_mul], ?_, ?_⟩
  · simp only [monte_carlo_price, List.map_map]
    try rfl
  · simp only [monte_carlo_price, List.map_map]
    try rfl

/-- C5: `implied_volatility` returns the explicit no-solution outcome `none`
whenever the observed market price is at most the intrinsic value or at most
`0`; and whenever the bracketed `brentq` root-finder on `[1e-4, 10.0]` with
budget `500` fails (modelled by the oracle returning `none`, covering both
failure to bracket and failure to converge), it also returns `none`.  It is a
total function into `Option ℝ`, so it never raises, and `none` is
distinguishable from a numeric zero `some 0`. -/
theorem implied_volatility_no_solution_policy
    (brentq : (ℝ → ℝ) → ℝ → ℝ → ℕ → Option ℝ)
    (market_price S0 K r T : ℝ) (option_type : String) :
    (market_price ≤ intrinsic S0 K option_type ∨ market_price ≤ 0 →
      implied_volatility brentq market_price S0 K r T option_type = none) ∧
    (brentq
        (fun sigma => black_scholes_price S0 K r sigma T option_type - market_price)
        (1 / 10000) 10 500 = none →
      implied_volatility brentq market_price S0 K r T option_type = none) := by
  constructor
  · intro h
    unfold implied_volatility
    rw [if_pos (by simpa [intrinsic] using h)]
  · intro h
    unfold implied_volatility
    by_cases hc : market_price ≤
        (if option_type = "call" then max (S0 - K) 0 else max (K - S0) 0) ∨
        market_price ≤ 0
    · rw [if_pos hc]
    · rw [if_neg hc]
      exact h

/-- Witness for C5: a market price of `1` on a call whose intrinsic value is
`2` has no solution. -/
theorem implied_volatility_no_solution_policy_witness :
    ((1:ℝ) ≤ intrinsic 3 1 "call" ∨ (1:ℝ) ≤ 0) ∧
    implied_volatility (fun _ _ _ _ => some 1) 1 3 1 0 1 "call" = none :=
  ⟨Or.inl (by norm_num [intrinsic]),
    (implied_volatility_no_solution_policy (fun _ _ _ _ => some 1)
      1 3 1 0 1 "call").1 (Or.inl (by norm_num [intrinsic]))⟩

/-- C9: on identical parameters and the same simulated paths, and any finite
barrier below spot, the down-and-out barrier call price is at most the
vanilla European call price on those paths: a knocked-out path's payoff `0`
is at most its vanilla payoff `max(S_T-K,0)`, every other path pays exactly
its vanilla payoff, and discounting preserves the inequality. -/
theorem barrier_le_vanilla (S0 K B r sigma T : ℝ) (steps n_paths : ℕ)
    (Z : ℕ → ℕ → ℝ) (hB : B < S0) (hsteps : 1 ≤ steps) (hpaths : 1 ≤ n_paths) :
    barrier_option_mc S0 K B r sigma T steps n_paths Z
      ≤ vanilla_call_mc_on_paths S0 K r sigma T steps n_paths Z := by
  unfold barrier_option_mc vanilla_call_mc_on_paths
  have hexp : (0:ℝ) ≤ Real.exp (-(r * T)) := (Real.exp_pos _).le
  have hsum : (∑ i ∈ Finset.range n_paths,
        (if ∃ j ∈ Finset.range steps,
            exotic_path_point S0 r sigma T steps Z i j ≤ B then (0:ℝ)
         else max (exotic_path_point S0 r sigma T steps Z i (steps - 1) - K) 0))
      ≤ ∑ i ∈ Finset.range n_paths,
          max (exotic_path_point S0 r sigma T steps Z i (steps - 1) - K) 0 := by
    refine Finset.sum_le_sum fun i _ => ?_
    split
    · exact le_max_right _ _
    · exact le_rfl
  apply mul_le_mul_of_nonneg_left _ hexp
  gcongr

/-- Witness for C9 at `S0 = 1`, `K = 1`, `B = 0`, one step, one path, zero
draws. -/
theorem barrier_le_vanilla_witness :
    barrier_option_mc 1 1 0 0 0 1 1 1 (fun _ _ => 0)
      ≤ vanilla_call_mc_on_paths 1 1 0 0 1 1 1 (fun _ _ => 0) :=
  barrier_le_vanilla 1 1 0 0 0 1 1 1 (fun _ _ => 0) (by norm_num) le_rfl le_rfl

/-! ### Signal engine -/

theorem mem_ite_nil {α : Type*} (s : α) (c : Prop) [Decidable c] (l : List α) :
    (s ∈ (if c then l else [])) ↔ c ∧ s ∈ l := by
  split
  · next h => simp [h]
  · next h => simp [h]

/-- Decomposition of `generate_signal` into its four independently guarded
signal groups and the verdict/colour/ratio computed by the IV/HV rule. -/
theorem generate_signal_eq (bs_price : ℝ) (market_price iv hv : Option ℝ)
    (delta theta T_days : ℝ) (option_type : String) :
    generate_signal bs_price market_price iv hv delta theta T_days option_type
      = ((if truthy iv && truthy hv then
            (if iv.getD 0 / hv.getD 0 > 13/10 then [Signal.expensive]
             else if iv.getD 0 / hv.getD 0 < 3/4 then [Signal.cheap]
             else [Signal.fairlyPriced])
          else [])
          ++ (if truthy market_price && decide (bs_price ≠ 0) then
                (if |(market_price.getD 0 - bs_price) / bs_price * 100| > 10 then
                  [Signal.deviation ((market_price.getD 0 - bs_price) / bs_price * 100)
                    (if (market_price.getD 0 - bs_price) / bs_price * 100 > 10
                     then "warning" else "good")]
                 else [])
              else [])
          ++ (if T_days < 30 then [Signal.timeDecay] else [])
          ++ (if delta ≠ 0 then
                [Signal.probITM (|delta| * 100)
                  (if 40 < |delta| * 100 ∧ |delta| * 100 < 60 then ITMBucket.nearMoney
                   else if |delta| * 100 > 70 then ITMBucket.highProb
                   else ITMBucket.longShot)]
              else []),
        (if truthy iv && truthy hv then
            (if iv.getD 0 / hv.getD 0 > 13/10 then "EXPENSIVE"
             else if iv.getD 0 / hv.getD 0 < 3/4 then "CHEAP"
             else "NEUTRAL")
          else "NEUTRAL"),
        (if truthy iv && truthy hv then
            (if iv.getD 0 / hv.getD 0 > 13/10 then "red"
             else if iv.getD 0 / hv.getD 0 < 3/4 then "green"
             else "gray")
          else "gray"),
        (if truthy iv && truthy hv then some (iv.getD 0 / hv.getD 0) else none)) := by
  unfold generate_signal
  by_cases h : (truthy iv && truthy hv) = true
  · by_cases h3 : iv.getD 0 / hv.getD 0 > 13/10
    · simp [h, h3]
    · by_cases h4 : iv.getD 0 / hv.getD 0 < 3/4
      · simp [h, h3, h4]
      · simp [h, h3, h4]
  · simp [h]

/-- C7: whenever both implied and historical volatility are available
(truthy), the verdict is `EXPENSIVE` exactly when `iv/hv > 1.3` (with the
"expensive" signal emitted), `CHEAP` exactly when `iv/hv < 0.75` (with the
"cheap" signal emitted), and otherwise the neutral "fairly priced" signal is
emitted and the verdict stays `NEUTRAL`; the thresholds are the fixed
constants `1.3` and `0.75`, and for every input whatsoever the verdict lies
in `{EXPENSIVE, CHEAP, NEUTRAL}`. -/
theorem iv_hv_verdict_policy (bs_price : ℝ) (market_price iv hv : Option ℝ)
    (delta theta T_days : ℝ) (option_type : String) :
    ((generate_signal bs_price market_price iv hv delta theta T_days
        option_type).2.1 = "EXPENSIVE" ∨
      (generate_signal bs_price market_price iv hv delta theta T_days
        option_type).2.1 = "CHEAP" ∨
      (generate_signal bs_price market_price iv hv delta theta T_days
        option_type).2.1 = "NEUTRAL") ∧
    (truthy iv = true → truthy hv = true →
      (((generate_signal bs_price market_price iv hv delta theta T_days
          option_type).2.1 = "EXPENSIVE" ↔ iv.getD 0 / hv.getD 0 > 13/10) ∧
       ((generate_signal bs_price market_price iv hv delta theta T_days
          option_type).2.1 = "CHEAP" ↔ iv.getD 0 / hv.getD 0 < 3/4) ∧
       (iv.getD 0 / hv.getD 0 > 13/10 →
         Signal.expensive ∈ (generate_signal bs_price market_price iv hv delta
           theta T_days option_type).1) ∧
       (iv.getD 0 / hv.getD 0 < 3/4 →
         Signal.cheap ∈ (generate_signal bs_price market_price iv hv delta
           theta T_days option_type).1) ∧
       (¬ iv.getD 0 / hv.getD 0 > 13/10 → ¬ iv.getD 0 / hv.getD 0 < 3/4 →
         Signal.fairlyPriced ∈ (generate_signal bs_price market_price iv hv
           delta theta T_days option_type).1 ∧
         (generate_signal bs_price market_price iv hv delta theta T_days
           option_type).2.1 = "NEUTRAL"))) := by
  rw [generate_signal_eq]
  constructor
  · split_ifs <;> simp
  · intro hiv hhv
    have hb : (truthy iv && truthy hv) = true := by simp [hiv, hhv]
    by_cases h3 : iv.getD 0 / hv.getD 0 > 13/10
    · have h4 : ¬ iv.getD 0 / hv.getD 0 < 3/4 := by
        intro h
        have : (3:ℝ)/4 < 13/10 := by norm_num
        linarith
      simp [hb, h3, h4, mem_ite_nil]
    · by_cases h4 : iv.getD 0 / hv.getD 0 < 3/4
      · simp [hb, h3, h4, mem_ite_nil]
      · simp [hb, h3, h4, mem_ite_nil]

/-- Witness for C7 at `iv = 2`, `hv = 1` (ratio `2 > 1.3`): the verdict is
`EXPENSIVE` and the expensive signal is emitted. -/
theorem iv_hv_verdict_policy_witness :
    truthy (some 2) = true ∧ truthy (some 1) = true ∧
    (2:ℝ) / 1 > 13/10 ∧
    (generate_signal 1 none (some 2) (some 1) 0 0 100 "call").2.1
      = "EXPENSIVE" ∧
    Signal.expensive
      ∈ (generate_signal 1 none (some 2) (some 1) 0 0 100 "call").1 := by
  have h2 : truthy (some (2:ℝ)) = true := by simp [truthy]
  have h1 : truthy (some (1:ℝ)) = true := by simp [truthy]
  have hr : ((some (2:ℝ)).getD 0) / ((some (1:ℝ)).getD 0) > 13/10 := by
    norm_num
  have hmain := (iv_hv_verdict_policy 1 none (some 2) (some 1) 0 0 100
    "call").2 h2 h1
  exact ⟨h2, h1, by norm_num, hmain.1.mpr hr, hmain.2.2.1 hr⟩

/-- C6 counterexample: with `delta = 0` (a value `compute_greeks` actually
returns on degenerate inputs) the signal list of `generate_signal` is empty,
so in particular it does not contain the probability-of-ITM signal: the
claim's "always emitted, for every input" fails at this input because of the
falsy guard `if delta:`. -/
theorem prob_itm_not_always_emitted :
    (generate_signal 1 none none none 0 0 100 "call").1 = [] := by
  rw [generate_signal_eq]
  have h30 : ¬ (100:ℝ) < 30 := by norm_num
  have h0 : ¬ (0:ℝ) ≠ 0 := by norm_num
  simp [truthy, h30, h0]

/-- C6 amended: whenever `delta` is truthy (nonzero), the returned signal
list contains the probability-of-ITM signal reporting `|delta|×100` as an
approximate probability, with its commentary bucketed as near-the-money on
`40 < p < 60`, far-ITM-like on `p > 70` (otherwise), and long-shot in the
remaining cases. -/
theorem prob_itm_signal_emitted (bs_price : ℝ) (market_price iv hv : Option ℝ)
    (delta theta T_days : ℝ) (option_type : String) (hd : delta ≠ 0) :
    (∃ b, Signal.probITM (|delta| * 100) b
      ∈ (generate_signal bs_price market_price iv hv delta theta T_days
          option_type).1) ∧
    (40 < |delta| * 100 → |delta| * 100 < 60 →
      Signal.probITM (|delta| * 100) ITMBucket.nearMoney
        ∈ (generate_signal bs_price market_price iv hv delta theta T_days
            option_type).1) ∧
    (¬ (40 < |delta| * 100 ∧ |delta| * 100 < 60) → |delta| * 100 > 70 →
      Signal.probITM (|delta| * 100) ITMBucket.highProb
        ∈ (generate_signal bs_price market_price iv hv delta theta T_days
            option_type).1) ∧
    (¬ (40 < |delta| * 100 ∧ |delta| * 100 < 60) → ¬ |delta| * 100 > 70 →
      Signal.probITM (|delta| * 100) ITMBucket.longShot
        ∈ (generate_signal bs_price market_price iv hv delta theta T_days
            option_type).1) := by
  rw [generate_signal_eq]
  have hcore : ∀ b : ITMBucket,
      (if 40 < |delta| * 100 ∧ |delta| * 100 < 60 then ITMBucket.nearMoney
       else if |delta| * 100 > 70 then ITMBucket.highProb
       else ITMBucket.longShot) = b →
      Signal.probITM (|delta| * 100) b
        ∈ ((if truthy iv && truthy hv then
              (if iv.getD 0 / hv.getD 0 > 13/10 then [Signal.expensive]
               else if iv.getD 0 / hv.getD 0 < 3/4 then [Signal.cheap]
               else [Signal.fairlyPriced])
            else [])
            ++ (if truthy market_price && decide (bs_price ≠ 0) then
                  (if |(market_price.getD 0 - bs_price) / bs_price * 100| > 10 then
                    [Signal.deviation ((market_price.getD 0 - bs_price) / bs_price * 100)
                      (if (market_price.getD 0 - bs_price) / bs_price * 100 > 10
                       then "warning" else "good")]
                   else [])
                else [])
            ++ (if T_days < 30 then [Signal.timeDecay] else [])
            ++ (if delta ≠ 0 then
                  [Signal.probITM (|delta| * 100)
                    (if 40 < |delta| * 100 ∧ |delta| * 100 < 60 then ITMBucket.nearMoney
                     else if |delta| * 100 > 70 then ITMBucket.highProb
                     else ITMBucket.longShot)]
                else [])) := by
    intro b hb
    simp only [List.mem_append]
    refine Or.inr ?_
    rw [mem_ite_nil]
    exact ⟨hd, by rw [hb]; exact List.mem_singleton_self _⟩
  refine ⟨⟨_, hcore _ rfl⟩, ?_, ?_, ?_⟩
  · intro ha hb
    exact hcore _ (by rw [if_pos ⟨ha, hb⟩])
  · intro hab h70
    exact hcore _ (by rw [if_neg hab, if_pos h70])
  · intro hab h70
    exact hcore _ (by rw [if_neg hab, if_neg h70])

/-- Witness for C6 (amended) at `delta = 1/2`: probability `50`, bucketed as
near-the-money. -/
theorem prob_itm_signal_emitted_witness :
    (1:ℝ)/2 ≠ 0 ∧ 40 < |(1:ℝ)/2| * 100 ∧ |(1:ℝ)/2| * 100 < 60 ∧
    Signal.probITM (|(1:ℝ)/2| * 100) ITMBucket.nearMoney
      ∈ (generate_signal 1 none none none ((1:ℝ)/2) 0 100 "call").1 := by
  refine ⟨by norm_num, by norm_num [abs_of_pos], by norm_num [abs_of_pos], ?_⟩
  exact (prob_itm_signal_emitted 1 none none none ((1:ℝ)/2) 0 100 "call"
    (by norm_num)).2.1 (by norm_num [abs_of_pos]) (by norm_num [abs_of_pos])

/-! ### Put-call parity -/

/-- On non-degenerate inputs (`σ > 0`, `T > 0`) `black_scholes_price` takes
the closed-form branch. -/
theorem black_scholes_price_nondegen (S0 K r sigma T : ℝ)
    (hsig : 0 < sigma) (hT : 0 < T) (ot : String) :
    black_scholes_price S0 K r sigma T ot =
      (if ot = "call" then
        S0 * Phi ((Real.log (S0 / K) + (r + sigma ^ 2 / 2) * T)
            / (sigma * Real.sqrt T))
          - K * Real.exp (-(r * T))
            * Phi ((Real.log (S0 / K) + (r + sigma ^ 2 / 2) * T)
                / (sigma * Real.sqrt T) - sigma * Real.sqrt T)
      else
        K * Real.exp (-(r * T))
            * Phi (-((Real.log (S0 / K) + (r + sigma ^ 2 / 2) * T)
                / (sigma * Real.sqrt T) - sigma * Real.sqrt T))
          - S0 * Phi (-((Real.log (S0 / K) + (r + sigma ^ 2 / 2) * T)
              / (sigma * Real.sqrt T)))) := by
  unfold black_scholes_price
  rw [if_neg (by push_neg; exact ⟨hT, hsig⟩)]

/-- Put-call parity on the non-degenerate branch, shared by the parity and
limit developments. -/
theorem bs_call_sub_put (S0 K r sigma T : ℝ) (hsig : 0 < sigma) (hT : 0 < T) :
    black_scholes_price S0 K r sigma T "call"
      - black_scholes_price S0 K r sigma T "put"
      = S0 - K * Real.exp (-(r * T)) := by
  rw [black_scholes_price_nondegen S0 K r sigma T hsig hT,
    black_scholes_price_nondegen S0 K r sigma T hsig hT]
  rw [if_pos rfl, if_neg (by decide)]
  have h1 := Phi_add_neg ((Real.log (S0 / K) + (r + sigma ^ 2 / 2) * T)
    / (sigma * Real.sqrt T))
  have h2 := Phi_add_neg ((Real.log (S0 / K) + (r + sigma ^ 2 / 2) * T)
    / (sigma * Real.sqrt T) - sigma * Real.sqrt T)
  linear_combination S0 * h1 - K * Real.exp (-(r * T)) * h2

/-- C1 counterexample: at `S0 = K = 1`, `r = 1`, `σ = 0`, `T = 1` — a valid
parameter set (`σ ≥ 0`, `T ≥ 0`) — the degenerate branch gives
`call − put = 0`, while `S − K·e^(−rT) = 1 − e^(−1) ≠ 0`: parity fails on the
degenerate branch whenever `σ = 0`, `T > 0`, `r·T ≠ 0`. -/
theorem put_call_parity_cex :
    black_scholes_price 1 1 1 0 1 "call" - black_scholes_price 1 1 1 0 1 "put"
      ≠ 1 - 1 * Real.exp (-(1 * 1)) := by
  have h1 : black_scholes_price 1 1 1 0 1 "call" = 0 := by
    unfold black_scholes_price
    rw [if_pos (Or.inr le_rfl)]
    norm_num
  have h2 : black_scholes_price 1 1 1 0 1 "put" = 0 := by
    unfold black_scholes_price
    rw [if_pos (Or.inr le_rfl)]
    norm_num
  have hlt : Real.exp (-(1 * 1) : ℝ) < 1 := by
    calc Real.exp (-(1 * 1) : ℝ) < Real.exp 0 := by
          apply Real.exp_lt_exp.mpr; norm_num
      _ = 1 := Real.exp_zero
  rw [h1, h2]
  intro habs
  rw [one_mul] at habs
  linarith

/-- C1 amended: put-call parity `call − put = S0 − K·e^(−rT)` holds for every
`S0 > 0`, `K > 0`, `r` on the non-degenerate branch `σ > 0`, `T > 0`; on the
degenerate branch (`T ≤ 0` or `σ ≤ 0`) the difference is exactly `S0 − K`,
which agrees with `S0 − K·e^(−rT)` exactly when `r·T = 0` (in particular at
`T = 0`). -/
theorem put_call_parity (S0 K r sigma T : ℝ) (hS : 0 < S0) (hK : 0 < K) :
    (0 < sigma → 0 < T →
      black_scholes_price S0 K r sigma T "call"
        - black_scholes_price S0 K r sigma T "put"
        = S0 - K * Real.exp (-(r * T))) ∧
    (T ≤ 0 ∨ sigma ≤ 0 →
      black_scholes_price S0 K r sigma T "call"
        - black_scholes_price S0 K r sigma T "put" = S0 - K) ∧
    (r * T = 0 → S0 - K * Real.exp (-(r * T)) = S0 - K) := by
  refine ⟨?_, ?_, ?_⟩
  · intro hsig hT
    exact bs_call_sub_put S0 K r sigma T hsig hT
  · intro hdeg
    have hc : black_scholes_price S0 K r sigma T "call" = max (S0 - K) 0 := by
      unfold black_scholes_price
      rw [if_pos hdeg, if_pos rfl]
    have hp : black_scholes_price S0 K r sigma T "put" = max (K - S0) 0 := by
      unfold black_scholes_price
      rw [if_pos hdeg, if_neg (by decide)]
    rw [hc, hp]
    rcases le_total S0 K with h | h
    · rw [max_eq_right (by linarith : S0 - K ≤ 0),
        max_eq_left (by linarith : (0:ℝ) ≤ K - S0)]
      ring
    · rw [max_eq_left (by linarith : (0:ℝ) ≤ S0 - K),
        max_eq_right (by linarith : K - S0 ≤ 0)]
      ring
  · intro h0
    rw [h0, neg_zero, Real.exp_zero, mul_one]

/-- Witness for C1 (amended) at `S0 = K = 1`, `r = 0`, `σ = 1`, `T = 1`. -/
theorem put_call_parity_witness :
    black_scholes_price 1 1 0 1 1 "call" - black_scholes_price 1 1 0 1 1 "put"
      = 1 - 1 * Real.exp (-(0 * 1)) :=
  (put_call_parity 1 1 0 1 1 (by norm_num) (by norm_num)).1
    (by norm_num) (by norm_num)

/-! ### The sigma-to-zero limit of the closed-form price -/

/-- The closed-form Black-Scholes call price tends, as `σ → 0⁺` with `T > 0`
fixed, to the discounted intrinsic value `max (S0 - K·e^(-rT)) 0`. -/
theorem bs_call_sigma_zero_limit (S0 K r T : ℝ)
    (hS : 0 < S0) (hK : 0 < K) (hT : 0 < T) :
    Tendsto (fun sigma => black_scholes_price S0 K r sigma T "call")
      (nhdsWithin 0 (Ioi 0))
      (nhds (max (S0 - K * Real.exp (-(r * T))) 0)) := by
  obtain ⟨u, hu, rfl⟩ : ∃ u : ℝ, 0 < u ∧ T = u * u :=
    ⟨Real.sqrt T, Real.sqrt_pos.mpr hT, (Real.mul_self_sqrt hT.le).symm⟩
  have hru : Real.sqrt (u * u) = u := Real.sqrt_mul_self hu.le
  have hev : (fun sigma => black_scholes_price S0 K r sigma (u * u) "call")
      =ᶠ[nhdsWithin 0 (Ioi 0)]
      (fun sigma =>
        S0 * Phi ((Real.log (S0 / K) + r * (u * u)) / (sigma * u) + sigma * u / 2)
          - K * Real.exp (-(r * (u * u)))
            * Phi ((Real.log (S0 / K) + r * (u * u)) / (sigma * u)
                - sigma * u / 2)) := by
    refine eventuallyEq_of_mem self_mem_nhdsWithin fun sigma hs => ?_
    have hs' : (0:ℝ) < sigma := hs
    rw [black_scholes_price_nondegen S0 K r sigma (u * u) hs' (by positivity),
      if_pos rfl, hru]
    have hne1 : sigma ≠ 0 := ne_of_gt hs'
    have hne2 : u ≠ 0 := ne_of_gt hu
    have h1 : (Real.log (S0 / K) + (r + sigma ^ 2 / 2) * (u * u)) / (sigma * u)
        = (Real.log (S0 / K) + r * (u * u)) / (sigma * u) + sigma * u / 2 := by
      field_simp
      ring
    rw [h1, show (Real.log (S0 / K) + r * (u * u)) / (sigma * u) + sigma * u / 2
          - sigma * u
        = (Real.log (S0 / K) + r * (u * u)) / (sigma * u) - sigma * u / 2
      from by ring]
  have hhalf : Tendsto (fun sigma : ℝ => sigma * u / 2)
      (nhdsWithin 0 (Ioi 0)) (nhds 0) := by
    have hcont : Tendsto (fun sigma : ℝ => sigma * u / 2) (nhds 0)
        (nhds (0 * u / 2)) :=
      ((continuous_id.mul continuous_const).div_const 2).tendsto 0
    rw [show (0:ℝ) * u / 2 = 0 by ring] at hcont
    exact hcont.mono_left nhdsWithin_le_nhds
  have hhalfneg : Tendsto (fun sigma : ℝ => -(sigma * u / 2))
      (nhdsWithin 0 (Ioi 0)) (nhds 0) := by
    simpa using hhalf.neg
  have hinv : Tendsto (fun sigma : ℝ => sigma⁻¹)
      (nhdsWithin 0 (Ioi 0)) atTop := tendsto_inv_zero_atTop
  have heq : (fun sigma : ℝ =>
      (Real.log (S0 / K) + r * (u * u)) / (sigma * u))
      = fun sigma : ℝ =>
        ((Real.log (S0 / K) + r * (u * u)) / u) * sigma⁻¹ := by
    funext sigma
    rw [div_mul_eq_div_div_swap, div_eq_mul_inv]
  rcases lt_trichotomy (Real.log (S0 / K) + r * (u * u)) 0 with hL | hL | hL
  · -- L < 0: spot below the discounted strike in the limit; price → 0
    have hSc : S0 < K * Real.exp (-(r * (u * u))) := by
      have hlog : Real.log (S0 / K) < Real.log (Real.exp (-(r * (u * u)))) := by
        rw [Real.log_exp]; linarith
      have hq : S0 / K < Real.exp (-(r * (u * u))) :=
        (Real.log_lt_log_iff (by positivity) (Real.exp_pos _)).mp hlog
      calc S0 = S0 / K * K := by field_simp
        _ < Real.exp (-(r * (u * u))) * K := mul_lt_mul_of_pos_right hq hK
        _ = K * Real.exp (-(r * (u * u))) := mul_comm _ _
    have hLdiv : Tendsto (fun sigma : ℝ =>
        (Real.log (S0 / K) + r * (u * u)) / (sigma * u))
        (nhdsWithin 0 (Ioi 0)) atBot := by
      rw [heq]
      exact Tendsto.const_mul_atTop_of_neg
        (div_neg_of_neg_of_pos hL hu) hinv
    have harg1 : Tendsto (fun sigma : ℝ =>
        (Real.log (S0 / K) + r * (u * u)) / (sigma * u) + sigma * u / 2)
        (nhdsWithin 0 (Ioi 0)) atBot := hLdiv.atBot_add hhalf
    have harg2 : Tendsto (fun sigma : ℝ =>
        (Real.log (S0 / K) + r * (u * u)) / (sigma * u) - sigma * u / 2)
        (nhdsWithin 0 (Ioi 0)) atBot := by
      simpa [sub_eq_add_neg] using hLdiv.atBot_add hhalfneg
    have hPhi1 := Phi_tendsto_atBot.comp harg1
    have hPhi2 := Phi_tendsto_atBot.comp harg2
    have hfin := (tendsto_const_nhds (x := S0)).mul hPhi1 |>.sub
      ((tendsto_const_nhds (x := K * Real.exp (-(r * (u * u))))).mul hPhi2)
    rw [show S0 * 0 - K * Real.exp (-(r * (u * u))) * 0 = 0 by ring] at hfin
    rw [show max (S0 - K * Real.exp (-(r * (u * u)))) 0 = 0 from
      max_eq_right (by linarith)]
    exact Tendsto.congr' hev.symm hfin
  · -- L = 0: spot equals the discounted strike; price → 0
    have hSc : S0 = K * Real.exp (-(r * (u * u))) := by
      have h1 : Real.log (S0 / K) = -(r * (u * u)) := by linarith
      have h2 : S0 / K = Real.exp (-(r * (u * u))) := by
        rw [← h1, Real.exp_log (by positivity : (0:ℝ) < S0 / K)]
      calc S0 = S0 / K * K := by field_simp
        _ = Real.exp (-(r * (u * u))) * K := by rw [h2]
        _ = K * Real.exp (-(r * (u * u))) := mul_comm _ _
    have hz1 : ∀ sigma : ℝ,
        (Real.log (S0 / K) + r * (u * u)) / (sigma * u) + sigma * u / 2
          = sigma * u / 2 := by
      intro sigma
      rw [hL, zero_div, zero_add]
    have hz2 : ∀ sigma : ℝ,
        (Real.log (S0 / K) + r * (u * u)) / (sigma * u) - sigma * u / 2
          = -(sigma * u / 2) := by
      intro sigma
      rw [hL, zero_div, zero_sub]
    have harg1 : Tendsto (fun sigma : ℝ =>
        (Real.log (S0 / K) + r * (u * u)) / (sigma * u) + sigma * u / 2)
        (nhdsWithin 0 (Ioi 0)) (nhds 0) := by
      simpa only [hz1] using hhalf
    have harg2 : Tendsto (fun sigma : ℝ =>
        (Real.log (S0 / K) + r * (u * u)) / (sigma * u) - sigma * u / 2)
        (nhdsWithin 0 (Ioi 0)) (nhds 0) := by
      simpa only [hz2] using hhalfneg
    have hPhi1 := (Phi_continuous.tendsto 0).comp harg1
    have hPhi2 := (Phi_continuous.tendsto 0).comp harg2
    rw [Phi_zero] at hPhi1 hPhi2
    have hfin := (tendsto_const_nhds (x := S0)).mul hPhi1 |>.sub
      ((tendsto_const_nhds (x := K * Real.exp (-(r * (u * u))))).mul hPhi2)
    rw [show S0 * (1/2) - K * Real.exp (-(r * (u * u))) * (1/2) = 0 from by
      rw [← hSc]; ring] at hfin
    rw [show max (S0 - K * Real.exp (-(r * (u * u)))) 0 = 0 from
      max_eq_right (by rw [← hSc]; simp)]
    exact Tendsto.congr' hev.symm hfin
  · -- L > 0: spot above the discounted strike; price → S0 - K e^(-rT)
    have hSc : K * Real.exp (-(r * (u * u))) < S0 := by
      have hlog : Real.log (Real.exp (-(r * (u * u)))) < Real.log (S0 / K) := by
        rw [Real.log_exp]; linarith
      have hq : Real.exp (-(r * (u * u))) < S0 / K :=
        (Real.log_lt_log_iff (Real.exp_pos _) (by positivity)).mp hlog
      calc K * Real.exp (-(r * (u * u)))
          = Real.exp (-(r * (u * u))) * K := mul_comm _ _
        _ < S0 / K * K := mul_lt_mul_of_pos_right hq hK
        _ = S0 := by field_simp
    have hLdiv : Tendsto (fun sigma : ℝ =>
        (Real.log (S0 / K) + r * (u * u)) / (sigma * u))
        (nhdsWithin 0 (Ioi 0)) atTop := by
      rw [heq]
      exact Tendsto.const_mul_atTop (div_pos hL hu) hinv
    have harg1 : Tendsto (fun sigma : ℝ =>
        (Real.log (S0 / K) + r * (u * u)) / (sigma * u) + sigma * u / 2)
        (nhdsWithin 0 (Ioi 0)) atTop := hLdiv.atTop_add hhalf
    have harg2 : Tendsto (fun sigma : ℝ =>
        (Real.log (S0 / K) + r * (u * u)) / (sigma * u) - sigma * u / 2)
        (nhdsWithin 0 (Ioi 0)) atTop := by
      simpa [sub_eq_add_neg] using hLdiv.atTop_add hhalfneg
    have hPhi1 := Phi_tendsto_atTop.comp harg1
    have hPhi2 := Phi_tendsto_atTop.comp harg2
    have hfin := (tendsto_const_nhds (x := S0)).mul hPhi1 |>.sub
      ((tendsto_const_nhds (x := K * Real.exp (-(r * (u * u))))).mul hPhi2)
    rw [show S0 * 1 - K * Real.exp (-(r * (u * u))) * 1
        = S0 - K * Real.exp (-(r * (u * u))) by ring] at hfin
    rw [show max (S0 - K * Real.exp (-(r * (u * u)))) 0
        = S0 - K * Real.exp (-(r * (u * u))) from max_eq_left (by linarith)]
    exact Tendsto.congr' hev.symm hfin

/-- C4 counterexample: at `S0 = K = 1`, `r = 1`, `T = 1` the closed-form call
price tends, as `σ → 0⁺`, to `1 - e^(-1)` (the discounted intrinsic value),
while the degenerate branch returns `max(S0-K,0) = 0 ≠ 1 - e^(-1)`: the
fallback value is not the `σ → 0⁺` limit at this input. -/
theorem bs_degenerate_not_limit_cex :
    Tendsto (fun sigma => black_scholes_price 1 1 1 sigma 1 "call")
      (nhdsWithin 0 (Ioi 0)) (nhds (1 - Real.exp (-1))) ∧
    black_scholes_price 1 1 1 0 1 "call" = 0 ∧
    ¬ Tendsto (fun sigma => black_scholes_price 1 1 1 sigma 1 "call")
      (nhdsWithin 0 (Ioi 0))
      (nhds (black_scholes_price 1 1 1 0 1 "call")) := by
  have hexp : Real.exp (-1 : ℝ) < 1 := by
    calc Real.exp (-1 : ℝ) < Real.exp 0 := by
          apply Real.exp_lt_exp.mpr; norm_num
      _ = 1 := Real.exp_zero
  have hlim := bs_call_sigma_zero_limit 1 1 1 1 (by norm_num) (by norm_num)
    (by norm_num)
  have hmax : max ((1:ℝ) - 1 * Real.exp (-(1 * 1))) 0 = 1 - Real.exp (-1) := by
    rw [show -((1:ℝ) * 1) = -1 by norm_num, one_mul]
    exact max_eq_left (by linarith)
  rw [hmax] at hlim
  have hdeg : black_scholes_price 1 1 1 0 1 "call" = 0 := by
    unfold black_scholes_price
    rw [if_pos (Or.inr le_rfl)]
    norm_num
  refine ⟨hlim, hdeg, fun habs => ?_⟩
  rw [hdeg] at habs
  have := tendsto_nhds_unique hlim habs
  linarith

/-- C4 amended: for every `S0 > 0`, `K > 0`, `r` and fixed `T > 0`, the
closed-form price tends, as `σ → 0⁺`, to the discounted intrinsic value
`max(S0 - K·e^(-rT), 0)` for a call and `max(K·e^(-rT) - S0, 0)` for a put;
the value returned by the degenerate branch at `T = 0` equals the intrinsic
value exactly for any `σ`, and the degenerate fallback agrees with the
`σ → 0⁺` limit exactly on the discount-free case `r·T = 0`. -/
theorem bs_degenerate_vs_limit (S0 K r T : ℝ)
    (hS : 0 < S0) (hK : 0 < K) (hT : 0 < T) :
    Tendsto (fun sigma => black_scholes_price S0 K r sigma T "call")
      (nhdsWithin 0 (Ioi 0))
      (nhds (max (S0 - K * Real.exp (-(r * T))) 0)) ∧
    Tendsto (fun sigma => black_scholes_price S0 K r sigma T "put")
      (nhdsWithin 0 (Ioi 0))
      (nhds (max (K * Real.exp (-(r * T)) - S0) 0)) ∧
    (∀ sigma, black_scholes_price S0 K r sigma 0 "call" = max (S0 - K) 0) ∧
    (∀ sigma, black_scholes_price S0 K r sigma 0 "put" = max (K - S0) 0) ∧
    (r * T = 0 →
      max (S0 - K * Real.exp (-(r * T))) 0 = max (S0 - K) 0 ∧
      max (K * Real.exp (-(r * T)) - S0) 0 = max (K - S0) 0) := by
  have hcall := bs_call_sigma_zero_limit S0 K r T hS hK hT
  refine ⟨hcall, ?_, ?_, ?_, ?_⟩
  · -- the put limit, via non-degenerate put-call parity
    have hev : (fun sigma => black_scholes_price S0 K r sigma T "put")
        =ᶠ[nhdsWithin 0 (Ioi 0)]
        (fun sigma => black_scholes_price S0 K r sigma T "call"
          - (S0 - K * Real.exp (-(r * T)))) := by
      refine eventuallyEq_of_mem self_mem_nhdsWithin fun sigma hs => ?_
      have h := bs_call_sub_put S0 K r sigma T hs hT
      linarith
    have hsub : Tendsto (fun sigma =>
        black_scholes_price S0 K r sigma T "call"
          - (S0 - K * Real.exp (-(r * T))))
        (nhdsWithin 0 (Ioi 0))
        (nhds (max (S0 - K * Real.exp (-(r * T))) 0
          - (S0 - K * Real.exp (-(r * T))))) := hcall.sub_const _
    have hval : max (S0 - K * Real.exp (-(r * T))) 0
        - (S0 - K * Real.exp (-(r * T)))
        = max (K * Real.exp (-(r * T)) - S0) 0 := by
      rcases le_total (S0 - K * Real.exp (-(r * T))) 0 with h | h
      · rw [max_eq_right h, max_eq_left (by linarith)]
        ring
      · rw [max_eq_left h, max_eq_right (by linarith)]
        ring
    rw [hval] at hsub
    exact Tendsto.congr' hev.symm hsub
  · intro sigma
    unfold black_scholes_price
    rw [if_pos (Or.inl le_rfl), if_pos rfl]
  · intro sigma
    unfold black_scholes_price
    rw [if_pos (Or.inl le_rfl), if_neg (by decide)]
  · intro h0
    rw [h0, neg_zero, Real.exp_zero, mul_one]
    exact ⟨rfl, rfl⟩

/-- Witness for C4 (amended) at `S0 = 2`, `K = 1`, `r = 0`, `T = 1`. -/
theorem bs_degenerate_vs_limit_witness :
    Tendsto (fun sigma => black_scholes_price 2 1 0 sigma 1 "call")
      (nhdsWithin 0 (Ioi 0))
      (nhds (max ((2:ℝ) - 1 * Real.exp (-(0 * 1))) 0)) :=
  (bs_degenerate_vs_limit 2 1 0 1 (by norm_num) (by norm_num) (by norm_num)).1

end OptionsDecoded

end
